import Mathlib

/-!
Verification of the client-side search subsystem of the documentation site:
the HTML-aware tokenizer, the packed position table, the highlighter
(src/assets/javascripts/integrations/search/internal/index.ts, which contains
two drafts of the same functions, and the experimentation script with a third
draft), and the result ranking/grouping pipeline of the `Search` class
(src/assets/javascripts/integrations/search/_/index.ts).

Strings are modelled as lists of characters, JavaScript loops as fuel-indexed
structural recursion with the fuel instantiated so that it cannot run out at
the modelled call sites, scores as rational numbers, and the in-place sort the
highlighter performs on its argument as an explicitly returned final state.
-/

namespace SearchSpec

/-- JavaScript `value.charAt(i)`: the character at index `i`.  An out-of-range
access yields the empty string, which compares unequal to every one-character
string; it is modelled by the null character, which occurs in no input of
interest. -/
def charAt (v : List Char) (i : Nat) : Char :=
  v.getD i (Char.ofNat 0)

/-- JavaScript `value.slice(a, b)` for non-negative `a` and `b`: the characters
of positions `[a, b)`, empty when `a ≥ b`. -/
def jsSlice (v : List Char) (a b : Nat) : List Char :=
  (v.take b).drop a

/-- JavaScript 32-bit left shift on the non-negative operands arising here; the
reduction modulo `2 ^ 32` models the int32 truncation. -/
def shl32 (a n : Nat) : Nat :=
  (a <<< n) % 2 ^ 32

/-- A section produced by the HTML-aware splitter `split` of the second draft of
the search internals: `[start, end, block]`, the character range of the section
and the index of the enclosing top-level block. -/
structure Sect where
  start : Nat
  stop : Nat
  block : Nat
deriving Repr, DecidableEq

/-- The scanning loop of `split` (second draft, internal/index.ts lines
255-291).  `pos` is the loop variable `end`, `fuel` the number of remaining
iterations; `split` passes the length of the string, so the loop exit
coincides with `pos` reaching the end of the string, at which point the
trailing section is added when non-empty.  `stack` is the plain integer
counter of currently open tags (it goes negative on stray closing tags, as in
the source).  Note `charAt v (pos - 1)` for `pos = 0` reads the current
character `>` instead of the empty string the source sees at index `-1`; both
compare unequal to `/`, so the behaviour agrees. -/
def splitGo (v : List Char) : Nat → Nat → Nat → Nat → Int → List Sect
  | 0, pos, start, block, _ =>
      if start < pos then [⟨start, pos, block⟩] else []
  | fuel + 1, pos, start, block, stack =>
      if charAt v pos = '<' ∧ start < pos then
        ⟨start, pos, block⟩ :: splitGo v fuel (pos + 1) pos block stack
      else if charAt v pos = '>' then
        if charAt v (start + 1) = '/' then
          if stack - 1 = 0 then
            ⟨pos + 1, pos + 1, block + 1⟩ ::
              splitGo v fuel (pos + 1) (pos + 1) (block + 1) (stack - 1)
          else
            splitGo v fuel (pos + 1) (pos + 1) block (stack - 1)
        else if charAt v (pos - 1) ≠ '/' then
          splitGo v fuel (pos + 1) (pos + 1) block (stack + 1)
        else
          splitGo v fuel (pos + 1) (pos + 1) block stack
      else
        splitGo v fuel (pos + 1) start block stack

/-- Split a string into sections (second draft): isolate the non-HTML parts of
the string, tracking the enclosing top-level block. -/
def split (v : List Char) : List Sect :=
  splitGo v v.length 0 0 0 0

/-- A section produced by `extract` (first draft, internal/index.ts lines
68-103): `[block, add, start, end]` where `add` is `1` for textual content and
`0` for a block marker. -/
structure SectA where
  block : Nat
  add : Nat
  start : Nat
  stop : Nat
deriving Repr, DecidableEq

/-- The scanning loop of `extract` (first draft), with the same fuel discipline
as `splitGo`. -/
def extractGo (v : List Char) : Nat → Nat → Nat → Nat → Int → List SectA
  | 0, pos, start, block, _ =>
      if start < pos then [⟨block, 1, start, pos⟩] else []
  | fuel + 1, pos, start, block, stack =>
      if charAt v pos = '<' ∧ start < pos then
        ⟨block, 1, start, pos⟩ :: extractGo v fuel (pos + 1) pos block stack
      else if charAt v pos = '>' then
        if charAt v (start + 1) = '/' then
          if stack - 1 = 0 then
            extractGo v fuel (pos + 1) (pos + 1) (block + 1) (stack - 1)
          else
            extractGo v fuel (pos + 1) (pos + 1) block (stack - 1)
        else if charAt v (pos - 1) ≠ '/' then
          if stack = 0 then
            ⟨block, 0, start + 1, pos⟩ ::
              extractGo v fuel (pos + 1) (pos + 1) block (stack + 1)
          else
            extractGo v fuel (pos + 1) (pos + 1) block (stack + 1)
        else
          extractGo v fuel (pos + 1) (pos + 1) block stack
      else
        extractGo v fuel (pos + 1) start block stack

/-- Extract all non-HTML parts of a string (first draft). -/
def extract (v : List Char) : List SectA :=
  extractGo v v.length 0 0 0 0

/-- Position of the first separator character of `l` at or after the running
index `i`: the scan a global single-character-class separator regular
expression performs from `lastIndex` onwards. -/
def findIdxFrom (isSep : Char → Bool) : List Char → Nat → Option Nat
  | [], _ => none
  | c :: cs, i => if isSep c then some i else findIdxFrom isSep cs (i + 1)

/-- `separator.exec(section)` with `lastIndex` equal to `i`. -/
def findSep (isSep : Char → Bool) (s : List Char) (i : Nat) : Option Nat :=
  findIdxFrom isSep (s.drop i) i

/-- The `do … while (match)` loop of the tokenizer (second draft): the spans
`[index, until)` of the non-empty runs between separator matches of `s`,
starting at index `i`.  One unit of fuel is spent per executed match, and the
index advances past each match, so `spans` supplies fuel `s.length + 1`. -/
def spansGo (isSep : Char → Bool) (s : List Char) : Nat → Nat → List (Nat × Nat)
  | 0, _ => []
  | fuel + 1, i =>
      match findSep isSep s i with
      | some j => (if i < j then [(i, j)] else []) ++ spansGo isSep s fuel (j + 1)
      | none => if i < s.length then [(i, s.length)] else []

/-- The token spans of one section. -/
def spans (isSep : Char → Bool) (s : List Char) : List (Nat × Nat) :=
  spansGo isSep s (s.length + 1) 0

/-- The packed position-table entry of the tokenizer (second draft):
`start + index << 14 | until - index << 8 | block << 2`. -/
def pack (offset len block : Nat) : Nat :=
  shl32 offset 14 ||| shl32 len 8 ||| shl32 block 2

/-- A token of the tokenizer (second draft): its lowercased text and the index
of its entry in the shared position table. -/
structure Token where
  text : List Char
  ref : Nat
deriving Repr, DecidableEq

/-- The loop body of the tokenizer for one token span: push the packed entry
onto the shared table and emit the lowercased token referencing the entry just
pushed (`index: table.length - 1`). -/
def tokStep (sect : List Char) (sec : Sect) (acc : List Token × List Nat)
    (sp : Nat × Nat) : List Token × List Nat :=
  let table := acc.2 ++ [pack (sec.start + sp.1) (sp.2 - sp.1) sec.block]
  (acc.1 ++ [⟨(jsSlice sect sp.1 sp.2).map Char.toLower, table.length - 1⟩], table)

/-- The loop body of the tokenizer for one section: split the section text at
the separator and emit one token per span. -/
def secStep (isSep : Char → Bool) (v : List Char) (acc : List Token × List Nat)
    (sec : Sect) : List Token × List Nat :=
  let sect := jsSlice v sec.start sec.stop
  (spans isSep sect).foldl (tokStep sect sec) acc

/-- The HTML-aware tokenizer (second draft, internal/index.ts lines 307-354):
split the string into sections, split each section at the separator, push one
packed entry per token onto the shared position table (seeded with `[0]`) and
emit the lowercased tokens referencing it. -/
def tokenizer (isSep : Char → Bool) (v : List Char) : List Token × List Nat :=
  (split v).foldl (secStep isSep v) ([], [0])

/-- The packed data of the emitted tokens, one triple per token in emission
order: the start offset in the original string, the length and the block
index.  These are exactly the arguments of `pack` for the successive table
entries of `tokenizer`. -/
def tokenMeta (isSep : Char → Bool) (v : List Char) : List (Nat × Nat × Nat) :=
  (split v).flatMap fun sec =>
    (spans isSep (jsSlice v sec.start sec.stop)).map fun sp =>
      (sec.start + sp.1, sp.2 - sp.1, sec.block)

/-- The lowercased text of the token at span `sp` of the section `sec`. -/
def tokText (v : List Char) (sec : Sect) (sp : Nat × Nat) : List Char :=
  (jsSlice (jsSlice v sec.start sec.stop) sp.1 sp.2).map Char.toLower

/-- The packed position-table entry of the token at span `sp` of section
`sec`. -/
def entryOf (sec : Sect) (sp : Nat × Nat) : Nat :=
  pack (sec.start + sp.1) (sp.2 - sp.1) sec.block

/-- A list of token texts paired with consecutive table references starting at
`base` — the shape of the token list the tokenizer accumulates. -/
def indexTokens : Nat → List (List Char) → List Token
  | _, [] => []
  | base, t :: rest => ⟨t, base⟩ :: indexTokens (base + 1) rest

/-- The token texts of all sections, in emission order. -/
def sectTexts (isSep : Char → Bool) (v : List Char) (secs : List Sect) :
    List (List Char) :=
  secs.flatMap fun sec =>
    (spans isSep (jsSlice v sec.start sec.stop)).map (tokText v sec)

/-- The packed table entries of all sections, in emission order. -/
def sectEntries (isSep : Char → Bool) (v : List Char) (secs : List Sect) :
    List Nat :=
  secs.flatMap fun sec =>
    (spans isSep (jsSlice v sec.start sec.stop)).map (entryOf sec)

/-- A position reference carried by a token: the shared position table and an
index into it. -/
structure Position where
  table : List Nat
  index : Nat
deriving Repr, DecidableEq

/-- The decoded span of a position reference, as read by the highlighter:
`offset = table[index] >> 14` and `length = table[index] >> 8 & 0x3F`. -/
def decodeSpan (p : Position) : Nat × Nat :=
  (p.table.getD p.index 0 >>> 14, (p.table.getD p.index 0 >>> 8) &&& 0x3F)

/-- Two decoded spans do not overlap: one ends at or before the other
starts. -/
def spanDisjoint (s t : Nat × Nat) : Prop :=
  s.1 + s.2 ≤ t.1 ∨ t.1 + t.2 ≤ s.1

instance (s t : Nat × Nat) : Decidable (spanDisjoint s t) := by
  unfold spanDisjoint
  infer_instance

/-- Wrap the `[offset, offset + len)` slice of `v` in `<mark>` markers, leaving
the rest of the string unchanged. -/
def insertMark (v : List Char) (offset len : Nat) : List Char :=
  jsSlice v 0 offset ++ "<mark>".toList ++ jsSlice v offset (offset + len) ++
    "</mark>".toList ++ v.drop (offset + len)

/-- The sort the highlighter performs on its `positions` argument:
`positions.sort((a, b) => b.index - a.index)`, a stable in-place sort putting
larger indices first. -/
def sortPositions (ps : List Position) : List Position :=
  List.insertionSort (fun a b => b.index ≤ a.index) ps

/-- The highlighter (second draft, internal/index.ts lines 364-383): sort the
caller's `positions` array in place, then wrap each decoded span with markers,
from the back of the string towards the front.  The in-place mutation of the
argument array is modelled by returning the final contents of the array
alongside the new string. -/
def highlighter (v : List Char) (ps : List Position) : List Char × List Position :=
  let sorted := sortPositions ps
  (sorted.foldl
    (fun acc p => insertMark acc (decodeSpan p).1 (decodeSpan p).2)
    v, sorted)

/-- Insertion of the markers at a list of decoded spans from the highest offset
to the lowest, following the specification text describing the highlighter
invariant. -/
def insertDescending (v : List Char) (sps : List (Nat × Nat)) : List Char :=
  (List.insertionSort (fun a b => b.1 ≤ a.1) sps).foldl
    (fun acc sp => insertMark acc sp.1 sp.2) v

instance : IsTotal Position fun a b => b.index ≤ a.index :=
  ⟨fun a b => Nat.le_total b.index a.index⟩

instance : IsTrans Position fun a b => b.index ≤ a.index :=
  ⟨fun _ _ _ hab hbc => Nat.le_trans hbc hab⟩

instance : IsTotal (Nat × Nat) fun a b => b.1 ≤ a.1 :=
  ⟨fun a b => Nat.le_total b.1 a.1⟩

instance : IsTrans (Nat × Nat) fun a b => b.1 ≤ a.1 :=
  ⟨fun _ _ _ hab hbc => Nat.le_trans hbc hab⟩

/-- The inner tag-scanning loop of the draft tokenizer in the experimentation
script (part_000 lines 300-305): `while (value.charAt(end) !== ">") end++`,
which searches for a closing angle bracket without any end-of-string check.
Fuel-indexed: the loop terminates on an input exactly when some amount of fuel
makes the scan return `some`. -/
def scanTagEnd (v : List Char) : Nat → Nat → Option Nat
  | 0, _ => none
  | fuel + 1, pos =>
      if charAt v pos = '>' then some pos else scanTagEnd v fuel (pos + 1)

/-- A whitespace-or-hyphen separator, the default `lunr` separator
`/[\s\-]+/` restricted to the characters occurring in the concrete examples. -/
def defaultSeparator (c : Char) : Bool :=
  c = ' ' || c = '\t' || c = '\n' || c = '-'

/-- Presence modifier of a query clause:
`lunr.Query.presence.{REQUIRED, OPTIONAL, PROHIBITED}`. -/
inductive Presence
  | required
  | optional
  | prohibited
deriving Repr, DecidableEq

/-- Modelled from the spec: a clause of a parsed search query (module
`integrations/search/query`, which is not among the sources) — a term together
with a presence requirement.  The optional field restriction plays no role in
the verified claims and is omitted. -/
structure Clause where
  term : String
  presence : Presence
deriving Repr, DecidableEq

/-- Modelled from the spec: `parseSearchQuery` (module
`integrations/search/query`, not among the sources) parses a free-text query
into clauses; a leading `-` marks the clause PROHIBITED, a leading `+` marks
it REQUIRED, and a bare word is OPTIONAL.  Whitespace separates clauses. -/
def parseSearchQuery (q : String) : List Clause :=
  (q.toList.splitOn ' ').filterMap fun w =>
    match w with
    | [] => none
    | '-' :: rest => some ⟨String.mk rest, Presence.prohibited⟩
    | '+' :: rest => some ⟨String.mk rest, Presence.required⟩
    | c :: rest => some ⟨String.mk (c :: rest), Presence.optional⟩

/-- Key deduplication of a JavaScript object literal built by successive
assignments: the first occurrence of each key keeps its position. -/
def dedupKeysGo (seen : List String) : List (String × Bool) → List (String × Bool)
  | [] => []
  | p :: rest =>
      if p.1 ∈ seen then dedupKeysGo seen rest
      else p :: dedupKeysGo (p.1 :: seen) rest

/-- Modelled from the spec: `getSearchQueryTerms` (module
`integrations/search/query`, not among the sources) computes the term-coverage
map — for every distinct query term, whether at least one matched token begins
with that term (prefix-match semantics). -/
def getSearchQueryTerms (clauses : List Clause) (matched : List String) :
    List (String × Bool) :=
  dedupKeysGo []
    (clauses.map fun c =>
      (c.term, matched.any fun tk => c.term.toList.isPrefixOf tk.toList))

/-- Modelled from the spec: a document of the search document map (module
`integrations/search/document`, not among the sources): the location, the
title and text fields, and for a section the location of its parent article
(`none` for an article). -/
structure SearchDocument where
  location : String
  title : String
  text : String
  parent : Option String
deriving Repr, DecidableEq

/-- One raw hit returned by the underlying index: the document reference, the
raw score, and the match metadata — for every matched token, its positions per
matched field. -/
structure Hit where
  ref : String
  score : ℚ
  matchData : List (String × List (String × List Position))
deriving DecidableEq

/-- A search result document: the resolved document decorated with the
adjusted score and the term-coverage map (`SearchDocument & SearchMetadata`). -/
structure ResultDoc where
  location : String
  title : String
  text : String
  parent : Option String
  score : ℚ
  terms : List (String × Bool)
deriving DecidableEq

/-- A search result: the grouped result items and, when suggestions are
enabled, the suggestion terms. -/
structure SearchResult where
  items : List (List ResultDoc)
  suggestions : Option (List String)
deriving DecidableEq

/-- `map[field] ||= []; map[field].push(...position)` on a JavaScript object
modelled as an association list in key-insertion order. -/
def addPositions (m : List (String × List Position)) (fieldName : String)
    (ps : List Position) : List (String × List Position) :=
  if m.any fun q => q.1 = fieldName then
    m.map fun q => if q.1 = fieldName then (q.1, q.2 ++ ps) else q
  else m ++ [(fieldName, ps)]

/-- The aggregation loop of `Search.search`: collect the positions of all
matched tokens, per field. -/
def aggregateMatches (matchData : List (String × List (String × List Position))) :
    List (String × List Position) :=
  matchData.foldl (fun m e => e.2.foldl (fun m fe => addPositions m fe.1 fe.2) m) []

/-- `document[field]` for the highlighted keys (`"title" | "text"`). -/
def getField (d : SearchDocument) (fieldName : String) : String :=
  if fieldName = "title" then d.title
  else if fieldName = "text" then d.text
  else ""

/-- `document[field] = value` for the highlighted keys; the source casts every
aggregated field name to `"text" | "title"`, and fields other than these two
are left unchanged here. -/
def setField (d : SearchDocument) (fieldName : String) (value : String) :
    SearchDocument :=
  if fieldName = "title" then { d with title := value }
  else if fieldName = "text" then { d with text := value }
  else d

/-- The boost multiplier applied after the query: one when the document has no
parent (it is itself an article) plus the fraction of query terms matched. -/
def boostOf (doc : SearchDocument) (terms : List (String × Bool)) : ℚ :=
  (if doc.parent = none then 1 else 0) +
    ((terms.filter fun t => t.2).length : ℚ) / (terms.length : ℚ)

/-- The body of the result-assembly `reduce` of `Search.search` for one hit:
resolve the document, compute the term coverage, highlight every aggregated
field through `hl` (the per-field highlighter of the integration, abstracted),
and adjust the score by `1 + boost²`. -/
def mkItem (documents : String → Option SearchDocument)
    (hl : String → String → String → List Position → String)
    (clauses : List Clause) (h : Hit) : Option ResultDoc :=
  match documents h.ref with
  | none => none
  | some doc =>
      let terms := getSearchQueryTerms clauses (h.matchData.map fun e => e.1)
      let doc2 := (aggregateMatches h.matchData).foldl
        (fun d fe => setField d fe.1 (hl d.location fe.1 (getField d fe.1) fe.2)) doc
      some ⟨doc2.location, doc2.title, doc2.text, doc2.parent,
        h.score * (1 + boostOf doc terms ^ 2), terms⟩

/-- One step of the result-assembly `reduce`: skip hits whose document cannot
be resolved, push all others. -/
def itemStep (documents : String → Option SearchDocument)
    (hl : String → String → String → List Position → String)
    (clauses : List Clause) (item : List ResultDoc) (h : Hit) : List ResultDoc :=
  match mkItem documents hl clauses h with
  | none => item
  | some r => item ++ [r]

/-- The result-assembly `reduce` of `Search.search` (lines 268-313). -/
def searchItems (documents : String → Option SearchDocument)
    (hl : String → String → String → List Position → String)
    (clauses : List Clause) (hits : List Hit) : List ResultDoc :=
  hits.foldl (itemStep documents hl clauses) []

/-- `items.sort((a, b) => b.score - a.score)`: the stable re-sort of the
boosted results, larger scores first. -/
def sortItems (l : List ResultDoc) : List ResultDoc :=
  List.insertionSort (fun a b => b.score ≤ a.score) l

/-- The grouping key of a result: the location of the parent article of the
resolved document, or its own location when it has no parent; `none` when the
document map does not resolve the location. -/
def parentRef (documents : String → Option SearchDocument) (r : ResultDoc) :
    Option String :=
  match documents r.location with
  | none => none
  | some doc =>
      match doc.parent with
      | some p => some p
      | none => some doc.location

/-- `map.get(k)` on a JavaScript `Map` modelled as an association list in
key-insertion order. -/
def mapGet (m : List (String × List ResultDoc)) (k : String) :
    Option (List ResultDoc) :=
  (m.find? fun q => q.1 = k).map fun q => q.2

/-- `map.set(k, v)`: overwrite the value at an existing key in place, append a
new key at the end. -/
def mapSet (m : List (String × List ResultDoc)) (k : String)
    (v : List ResultDoc) : List (String × List ResultDoc) :=
  if m.any fun q => q.1 = k then
    m.map fun q => if q.1 = k then (k, v) else q
  else m ++ [(k, v)]

/-- One step of the grouping `reduce`: append the result to the item list of
its parent-article key, skipping results whose location does not resolve. -/
def groupStep (documents : String → Option SearchDocument)
    (m : List (String × List ResultDoc)) (r : ResultDoc) :
    List (String × List ResultDoc) :=
  match parentRef documents r with
  | none => m
  | some ref => mapSet m ref ((mapGet m ref).getD [] ++ [r])

/-- The grouping `reduce` of `Search.search` (lines 319-328): group the sorted
results by parent-article location. -/
def groupItems (documents : String → Option SearchDocument)
    (l : List ResultDoc) : List (String × List ResultDoc) :=
  l.foldl (groupStep documents) []

/-- The completeness pass of `Search.search` (lines 331-335): every group that
lacks an entry whose location equals the group key gets one synthesized from
the document map with score `0` and empty terms.  A key missing from the
document map — impossible when the map is closed under parents — makes the
source spread `undefined`, modelled as empty fields. -/
def fixGroups (documents : String → Option SearchDocument)
    (gs : List (String × List ResultDoc)) : List (String × List ResultDoc) :=
  gs.map fun g =>
    if g.2.any fun item => item.location = g.1 then g
    else
      match documents g.1 with
      | some doc =>
          (g.1, g.2 ++ [⟨doc.location, doc.title, doc.text, doc.parent, 0, []⟩])
      | none => (g.1, g.2 ++ [⟨"", "", "", none, 0, []⟩])

/-- `Search.search` (lines 254-369).  The query parser and the underlying
index may throw, modelled with `Except`; an exception, like an empty query,
yields the empty result.  The secondary title-only query used for suggestions
is abstracted as the total function `titleSearch`. -/
def searchFn (documents : String → Option SearchDocument)
    (parse : String → Except Unit (List Clause))
    (indexSearch : String → Except Unit (List Hit))
    (hl : String → String → String → List Position → String)
    (suggestEnabled : Bool) (titleSearch : List Clause → List Hit)
    (query : String) : SearchResult :=
  if query = "" then ⟨[], none⟩
  else
    match parse query with
    | Except.error _ => ⟨[], none⟩
    | Except.ok parsed =>
        let clauses := parsed.filter fun c => c.presence ≠ Presence.prohibited
        match indexSearch query with
        | Except.error _ => ⟨[], none⟩
        | Except.ok hits =>
            let groups := fixGroups documents
              (groupItems documents (sortItems (searchItems documents hl clauses hits)))
            let suggestions :=
              if suggestEnabled then
                some (match titleSearch clauses with
                  | [] => []
                  | t :: _ => t.matchData.map fun e => e.1)
              else none
            ⟨groups.map fun g => g.2, suggestions⟩

/-- A concrete document map for the worked examples: an article at `"a"` and a
section at `"a#s"` whose parent is the article. -/
def exDocs : String → Option SearchDocument := fun loc =>
  if loc = "a" then some ⟨"a", "T", "X", none⟩
  else if loc = "a#s" then some ⟨"a#s", "S", "Y", some "a"⟩
  else none

/-- A concrete hit on the section document, matching the token `"x"` in the
text field. -/
def exHit : Hit := ⟨"a#s", 1, [("x", [("text", [])])]⟩

/-- A concrete hit on the article document, matching the token `"foo"`. -/
def exHitFoo : Hit := ⟨"a", 1, [("foo", [("text", [])])]⟩

/-- A trivial per-field highlighter for the worked examples: return the field
value unchanged. -/
def exHl : String → String → String → List Position → String := fun _ _ s _ => s

/-! ### Arithmetic facts about the packed encoding -/

theorem two_mul_lor_add (x y r : Nat) (hr : r < 2) :
    2 * x ||| (2 * y + r) = 2 * (x ||| y) + r := by
  interval_cases r
  · have h := Nat.lor_bit false x false y
    simpa [Nat.bit] using h
  · have h := Nat.lor_bit false x true y
    simpa [Nat.bit] using h

theorem lor_eq_add_of_lt :
    ∀ n a b : Nat, a % 2 ^ n = 0 → b < 2 ^ n → a ||| b = a + b := by
  intro n
  induction n with
  | zero =>
      intro a b _ hb
      interval_cases b
      simp
  | succ n ih =>
      intro a b ha hb
      obtain ⟨k, hk⟩ := Nat.dvd_of_mod_eq_zero ha
      have ha2 : a = 2 * (2 ^ n * k) := by rw [hk]; ring
      have hb2 : b = 2 * (b / 2) + b % 2 := (Nat.div_add_mod b 2).symm
      have hblt : b / 2 < 2 ^ n := by
        have h2 : b < 2 ^ n * 2 := by rw [← pow_succ]; exact hb
        omega
      have ih2 := ih (2 ^ n * k) (b / 2) (Nat.mul_mod_right _ _) hblt
      calc a ||| b
          = 2 * (2 ^ n * k) ||| (2 * (b / 2) + b % 2) := by rw [← ha2, ← hb2]
        _ = 2 * (2 ^ n * k ||| b / 2) + b % 2 :=
            two_mul_lor_add _ _ _ (Nat.mod_lt b (by norm_num))
        _ = 2 * (2 ^ n * k + b / 2) + b % 2 := by rw [ih2]
        _ = a + b := by omega

theorem pack_eq (o l b : Nat) (ho : o < 262144) (hl : l ≤ 63) (hb : b ≤ 63) :
    pack o l b = o * 16384 + l * 256 + b * 4 := by
  have h32 : (2 : Nat) ^ 32 = 4294967296 := by norm_num
  have e1 : shl32 o 14 = o * 16384 := by
    have h14 : (2 : Nat) ^ 14 = 16384 := by norm_num
    unfold shl32
    rw [Nat.shiftLeft_eq, h14, h32]
    exact Nat.mod_eq_of_lt (by omega)
  have e2 : shl32 l 8 = l * 256 := by
    have h8 : (2 : Nat) ^ 8 = 256 := by norm_num
    unfold shl32
    rw [Nat.shiftLeft_eq, h8, h32]
    exact Nat.mod_eq_of_lt (by omega)
  have e3 : shl32 b 2 = b * 4 := by
    have h2 : (2 : Nat) ^ 2 = 4 := by norm_num
    unfold shl32
    rw [Nat.shiftLeft_eq, h2, h32]
    exact Nat.mod_eq_of_lt (by omega)
  have s1 : o * 16384 ||| l * 256 = o * 16384 + l * 256 := by
    have h14 : (2 : Nat) ^ 14 = 16384 := by norm_num
    refine lor_eq_add_of_lt 14 _ _ ?_ ?_ <;> rw [h14]
    · omega
    · omega
  have s2 : o * 16384 + l * 256 ||| b * 4 = o * 16384 + l * 256 + b * 4 := by
    have h8 : (2 : Nat) ^ 8 = 256 := by norm_num
    refine lor_eq_add_of_lt 8 _ _ ?_ ?_ <;> rw [h8]
    · omega
    · omega
  unfold pack
  rw [e1, e2, e3, s1, s2]

theorem decode_offset (o l b : Nat) (ho : o < 131072) (hl : l ≤ 63) (hb : b ≤ 63) :
    pack o l b >>> 14 = o := by
  rw [pack_eq o l b (by omega) hl hb, Nat.shiftRight_eq_div_pow]
  norm_num
  omega

theorem decode_len (o l b : Nat) (ho : o < 131072) (hl : l ≤ 63) (hb : b ≤ 63) :
    (pack o l b >>> 8) &&& 63 = l := by
  rw [pack_eq o l b (by omega) hl hb, Nat.shiftRight_eq_div_pow]
  have h63 : (63 : Nat) = 2 ^ 6 - 1 := by norm_num
  rw [h63, Nat.and_pow_two_sub_one_eq_mod]
  norm_num
  omega

/-! ### Slices -/

theorem jsSlice_comp (v : List Char) (a b i u : Nat) (hu : a + u ≤ b) :
    jsSlice (jsSlice v a b) i u = jsSlice v (a + i) (a + u) := by
  unfold jsSlice
  rw [List.take_drop, List.take_take, List.drop_drop]
  have h1 : min (a + u) b = a + u := by omega
  rw [h1]

theorem jsSlice_length (v : List Char) (a b : Nat) (hab : a ≤ b)
    (hb : b ≤ v.length) : (jsSlice v a b).length = b - a := by
  unfold jsSlice
  rw [List.length_drop, List.length_take]
  omega

/-! ### C8: the tag scan of the experimentation-script tokenizer -/

theorem charAt_no_gt : ∀ pos, charAt ('<' :: 'a' :: []) pos ≠ '>' := by
  intro pos
  match pos with
  | 0 => decide
  | 1 => decide
  | n + 2 =>
      have h : ('<' :: 'a' :: []).length ≤ n + 2 := by simp
      unfold charAt
      rw [List.getD_eq_default _ _ h]
      decide

/-- C8: the claim that the HTML-aware scanning step of the tokenizer terminates
on every input, treating end-of-string as an implicit tag terminator, fails for
the draft tokenizer of the experimentation script: on the unterminated tag
`"<a"` its inner scan `while (value.charAt(end) !== ">") end++` never finds a
closing bracket, whatever the iteration budget — the scanning loop never
exits.  (The shipped splitters `split` and `extract` do terminate: they are
total functions whose scans advance one character per iteration by
construction.) -/
theorem c8_part000_scan_never_terminates :
    ∀ fuel pos, scanTagEnd ('<' :: 'a' :: []) fuel pos = none := by
  intro fuel
  induction fuel with
  | zero => intro pos; rfl
  | succ n ih =>
      intro pos
      unfold scanTagEnd
      rw [if_neg (charAt_no_gt pos)]
      exact ih (pos + 1)

/-! ### Bounds of the splitter and the span scanner -/

theorem findIdxFrom_some (isSep : Char → Bool) :
    ∀ (l : List Char) (i j : Nat), findIdxFrom isSep l i = some j →
      i ≤ j ∧ j < i + l.length := by
  intro l
  induction l with
  | nil => intro i j h; simp [findIdxFrom] at h
  | cons c cs ih =>
      intro i j h
      rw [findIdxFrom] at h
      by_cases hc : isSep c
      · rw [if_pos hc] at h
        cases h
        simp
      · rw [if_neg hc] at h
        have := ih (i + 1) j h
        simp only [List.length_cons]
        omega

theorem findSep_some (isSep : Char → Bool) (s : List Char) (i j : Nat)
    (h : findSep isSep s i = some j) : i ≤ j ∧ j < s.length := by
  have h2 := findIdxFrom_some isSep (s.drop i) i j h
  rw [List.length_drop] at h2
  omega

theorem spansGo_mem (isSep : Char → Bool) (s : List Char) :
    ∀ (fuel i : Nat) (sp : Nat × Nat), sp ∈ spansGo isSep s fuel i →
      i ≤ sp.1 ∧ sp.1 < sp.2 ∧ sp.2 ≤ s.length := by
  intro fuel
  induction fuel with
  | zero => intro i sp h; simp [spansGo] at h
  | succ n ih =>
      intro i sp h
      rw [spansGo] at h
      cases hf : findSep isSep s i with
      | some j =>
          rw [hf] at h
          have hj := findSep_some isSep s i j hf
          rcases List.mem_append.mp h with h1 | h2
          · by_cases hij : i < j
            · rw [if_pos hij] at h1
              rcases List.mem_singleton.mp h1 with rfl
              exact ⟨Nat.le_refl _, hij, Nat.le_of_lt hj.2⟩
            · rw [if_neg hij] at h1
              simp at h1
          · have := ih (j + 1) sp h2
            omega
      | none =>
          rw [hf] at h
          by_cases his : i < s.length
          · rw [if_pos his] at h
            rcases List.mem_singleton.mp h with rfl
            exact ⟨Nat.le_refl _, his, Nat.le_refl _⟩
          · rw [if_neg his] at h
            simp at h

theorem spans_mem (isSep : Char → Bool) (s : List Char) (sp : Nat × Nat)
    (h : sp ∈ spans isSep s) : sp.1 < sp.2 ∧ sp.2 ≤ s.length :=
  (spansGo_mem isSep s (s.length + 1) 0 sp h).2

theorem splitGo_mem (v : List Char) :
    ∀ (fuel pos start block : Nat) (stack : Int) (sec : Sect),
      start ≤ pos → sec ∈ splitGo v fuel pos start block stack →
      sec.start ≤ sec.stop ∧ sec.stop ≤ pos + fuel := by
  intro fuel
  induction fuel with
  | zero =>
      intro pos start block stack sec hsp h
      rw [splitGo] at h
      by_cases hlt : start < pos
      · rw [if_pos hlt] at h
        rcases List.mem_singleton.mp h with rfl
        exact ⟨Nat.le_of_lt hlt, Nat.le_refl _⟩
      · rw [if_neg hlt] at h
        simp at h

  | succ n ih =>
      intro pos start block stack sec hsp h
      rw [splitGo] at h
      split_ifs at h with h1 h2 h3 h4 h5
      · rcases List.mem_cons.mp h with rfl | h6
        · have h7 := h1.2
          dsimp only
          omega
        · have := ih (pos + 1) pos block stack sec (Nat.le_succ pos) h6
          omega
      · rcases List.mem_cons.mp h with rfl | h6
        · dsimp only
          omega
        · have := ih (pos + 1) (pos + 1) (block + 1) (stack - 1) sec (Nat.le_refl _) h6
          omega
      · have := ih (pos + 1) (pos + 1) block (stack - 1) sec (Nat.le_refl _) h
        omega
      · have := ih (pos + 1) (pos + 1) block (stack + 1) sec (Nat.le_refl _) h
        omega
      · have := ih (pos + 1) (pos + 1) block stack sec (Nat.le_refl _) h
        omega
      · have := ih (pos + 1) start block stack sec (by omega) h
        omega

theorem split_mem (v : List Char) (sec : Sect) (h : sec ∈ split v) :
    sec.start ≤ sec.stop ∧ sec.stop ≤ v.length := by
  have := splitGo_mem v v.length 0 0 0 0 sec (Nat.le_refl 0) h
  omega

/-! ### Characterization of the tokenizer accumulator -/

theorem indexTokens_append :
    ∀ (xs ys : List (List Char)) (base : Nat),
      indexTokens base (xs ++ ys)
        = indexTokens base xs ++ indexTokens (base + xs.length) ys := by
  intro xs
  induction xs with
  | nil => intro ys base; simp [indexTokens]
  | cons x rest ih =>
      intro ys base
      have h : base + 1 + rest.length = base + (rest.length + 1) := by omega
      calc indexTokens base ((x :: rest) ++ ys)
          = ⟨x, base⟩ :: indexTokens (base + 1) (rest ++ ys) := by
            rw [List.cons_append, indexTokens]
        _ = ⟨x, base⟩ ::
              (indexTokens (base + 1) rest ++ indexTokens (base + 1 + rest.length) ys) := by
            rw [ih]
        _ = indexTokens base (x :: rest) ++ indexTokens (base + (x :: rest).length) ys := by
            simp only [indexTokens, List.cons_append, List.length_cons, h]

theorem indexTokens_getElem? :
    ∀ (xs : List (List Char)) (base k : Nat),
      (indexTokens base xs)[k]? = (xs[k]?).map fun t => ⟨t, base + k⟩ := by
  intro xs
  induction xs with
  | nil => intro base k; simp [indexTokens]
  | cons x rest ih =>
      intro base k
      cases k with
      | zero => simp [indexTokens]
      | succ k =>
          simp only [indexTokens, List.getElem?_cons_succ, ih]
          have h : base + 1 + k = base + (k + 1) := by omega
          rw [h]

theorem tokenizer_inner (v : List Char) (sec : Sect) :
    ∀ (sps : List (Nat × Nat)) (ts : List Token) (tb : List Nat),
      sps.foldl (tokStep (jsSlice v sec.start sec.stop) sec) (ts, tb)
        = (ts ++ indexTokens tb.length (sps.map (tokText v sec)),
            tb ++ sps.map (entryOf sec)) := by
  intro sps
  induction sps with
  | nil => intro ts tb; simp [indexTokens]
  | cons sp rest ih =>
      intro ts tb
      rw [List.foldl_cons]
      show List.foldl _
          (ts ++ [⟨tokText v sec sp, (tb ++ [entryOf sec sp]).length - 1⟩],
            tb ++ [entryOf sec sp]) rest = _
      rw [ih]
      simp [indexTokens, List.append_assoc, Nat.add_comm]

theorem tokenizer_outer (isSep : Char → Bool) (v : List Char) :
    ∀ (secs : List Sect) (ts : List Token) (tb : List Nat),
      secs.foldl (secStep isSep v) (ts, tb)
        = (ts ++ indexTokens tb.length (sectTexts isSep v secs),
            tb ++ sectEntries isSep v secs) := by
  intro secs
  induction secs with
  | nil => intro ts tb; simp [sectTexts, sectEntries, indexTokens]
  | cons sec rest ih =>
      intro ts tb
      rw [List.foldl_cons]
      show List.foldl _
          ((spans isSep (jsSlice v sec.start sec.stop)).foldl
            (tokStep (jsSlice v sec.start sec.stop) sec) (ts, tb)) rest = _
      rw [tokenizer_inner v sec, ih]
      simp only [sectTexts, sectEntries, List.flatMap_cons, indexTokens_append,
        List.length_append, List.length_map, List.append_assoc]

theorem tokenizer_eq (isSep : Char → Bool) (v : List Char) :
    tokenizer isSep v
      = (indexTokens 1 (sectTexts isSep v (split v)),
          0 :: sectEntries isSep v (split v)) := by
  unfold tokenizer
  rw [tokenizer_outer]
  simp

theorem sectEntries_eq_meta (isSep : Char → Bool) (v : List Char) :
    sectEntries isSep v (split v)
      = (tokenMeta isSep v).map fun m => pack m.1 m.2.1 m.2.2 := by
  simp only [sectEntries, tokenMeta, List.map_flatMap, List.map_map]
  rfl

theorem sectTexts_eq_meta (isSep : Char → Bool) (v : List Char) :
    sectTexts isSep v (split v)
      = (tokenMeta isSep v).map
          fun m => (jsSlice v m.1 (m.1 + m.2.1)).map Char.toLower := by
  simp only [sectTexts, tokenMeta, List.map_flatMap, List.map_map]
  refine List.flatMap_congr ?_
  intro sec hsec
  have hs := split_mem v sec hsec
  refine List.map_congr_left ?_
  intro sp hsp
  have hb := spans_mem isSep (jsSlice v sec.start sec.stop) sp hsp
  rw [jsSlice_length v sec.start sec.stop hs.1 hs.2] at hb
  show tokText v sec sp = _
  unfold tokText
  have h1 : sec.start + sp.1 + (sp.2 - sp.1) = sec.start + sp.2 := by omega
  rw [Function.comp_apply]
  show _ = (jsSlice v (sec.start + sp.1) (sec.start + sp.1 + (sp.2 - sp.1))).map Char.toLower
  rw [h1, jsSlice_comp v sec.start sec.stop sp.1 sp.2 (by omega)]

/-! ### Block monotonicity -/

theorem splitGo_chain (v : List Char) :
    ∀ (fuel pos start block : Nat) (stack : Int),
      List.Chain (· ≤ ·) block ((splitGo v fuel pos start block stack).map Sect.block) := by
  intro fuel
  induction fuel with
  | zero =>
      intro pos start block stack
      rw [splitGo]
      split_ifs
      · simp [List.chain_cons]
      · simp
  | succ n ih =>
      intro pos start block stack
      rw [splitGo]
      split_ifs with h1 h2 h3 h4 h5
      · exact List.Chain.cons (Nat.le_refl block) (ih _ _ _ _)
      · exact List.Chain.cons (Nat.le_succ block) (ih _ _ _ _)
      · exact ih _ _ _ _
      · exact ih _ _ _ _
      · exact ih _ _ _ _
      · exact ih _ _ _ _

theorem split_blocks_sorted (v : List Char) :
    List.Sorted (· ≤ ·) ((split v).map Sect.block) := by
  have h := splitGo_chain v v.length 0 0 0 0
  rw [List.chain_iff_pairwise] at h
  exact h.of_cons

theorem extractGo_chain (v : List Char) :
    ∀ (fuel pos start block : Nat) (stack : Int),
      List.Chain (· ≤ ·) block ((extractGo v fuel pos start block stack).map SectA.block) := by
  intro fuel
  induction fuel with
  | zero =>
      intro pos start block stack
      rw [extractGo]
      split_ifs
      · simp [List.chain_cons]
      · simp
  | succ n ih =>
      intro pos start block stack
      rw [extractGo]
      split_ifs with h1 h2 h3 h4 h5 h6
      · exact List.Chain.cons (Nat.le_refl block) (ih _ _ _ _)
      · exact List.Chain.imp' (fun a b hab => hab) (fun c hc => by omega) (ih _ _ _ _)
      · exact ih _ _ _ _
      · exact List.Chain.cons (Nat.le_refl block) (ih _ _ _ _)
      · exact ih _ _ _ _
      · exact ih _ _ _ _
      · exact ih _ _ _ _

theorem extract_blocks_sorted (v : List Char) :
    List.Sorted (· ≤ ·) ((extract v).map SectA.block) := by
  have h := extractGo_chain v v.length 0 0 0 0
  rw [List.chain_iff_pairwise] at h
  exact h.of_cons

theorem sorted_flatMap_const {β : Type} (f : Sect → List β) :
    ∀ secs : List Sect, List.Sorted (· ≤ ·) (secs.map Sect.block) →
      List.Sorted (· ≤ ·) (secs.flatMap fun sec => (f sec).map fun _ => sec.block) := by
  intro secs
  induction secs with
  | nil => intro _; simp
  | cons sec rest ih =>
      intro h
      rw [List.map_cons, List.sorted_cons] at h
      rw [List.flatMap_cons]
      refine List.pairwise_append.mpr ⟨?_, ih h.2, ?_⟩
      · exact (List.pairwise_map).mpr
          (List.pairwise_of_forall fun _ _ => Nat.le_refl _)
      · intro a ha b hb
        simp only [List.mem_map] at ha
        obtain ⟨_, _, rfl⟩ := ha
        simp only [List.mem_flatMap, List.mem_map] at hb
        obtain ⟨sec2, hsec2, _, _, rfl⟩ := hb
        exact h.1 _ (List.mem_map_of_mem _ hsec2)

theorem tokenMeta_blocks_sorted (isSep : Char → Bool) (v : List Char) :
    List.Sorted (· ≤ ·) ((tokenMeta isSep v).map fun m => m.2.2) := by
  have h : (tokenMeta isSep v).map (fun m => m.2.2)
      = (split v).flatMap fun sec =>
          (spans isSep (jsSlice v sec.start sec.stop)).map fun _ => sec.block := by
    simp only [tokenMeta, List.map_flatMap, List.map_map]
    rfl
  rw [h]
  exact sorted_flatMap_const _ _ (split_blocks_sorted v)

/-- C6: for every input string, well-formed or not, the block indices attached
to the tokens emitted by the tokenizer are non-decreasing in emission order.
The first conjunct identifies the tokenizer's shared position table with the
packed `tokenMeta` triples, so the second conjunct speaks about the block
argument of each emitted token's table entry; the third conjunct is the same
monotonicity for the sections of the first-draft splitter `extract`. -/
theorem c6_block_monotonicity (isSep : Char → Bool) (v : List Char) :
    (tokenizer isSep v).2
        = 0 :: (tokenMeta isSep v).map (fun m => pack m.1 m.2.1 m.2.2) ∧
      List.Sorted (· ≤ ·) ((tokenMeta isSep v).map fun m => m.2.2) ∧
      List.Sorted (· ≤ ·) ((extract v).map SectA.block) := by
  refine ⟨?_, tokenMeta_blocks_sorted isSep v, extract_blocks_sorted v⟩
  rw [tokenizer_eq, sectEntries_eq_meta]

/-! ### Round-trip of token positions -/

theorem tokenizer_spec (isSep : Char → Bool) (v : List Char) (k : Nat)
    (m : Nat × Nat × Nat) (tok : Token)
    (hm : (tokenMeta isSep v)[k]? = some m)
    (htok : (tokenizer isSep v).1[k]? = some tok) :
    tok.ref = k + 1 ∧
      tok.text = (jsSlice v m.1 (m.1 + m.2.1)).map Char.toLower ∧
      (tokenizer isSep v).2[k + 1]? = some (pack m.1 m.2.1 m.2.2) := by
  rw [tokenizer_eq] at htok
  simp only [indexTokens_getElem?, sectTexts_eq_meta, List.getElem?_map, hm,
    Option.map_some'] at htok
  cases htok
  refine ⟨by dsimp only; omega, rfl, ?_⟩
  rw [tokenizer_eq]
  simp only [List.getElem?_cons_succ, sectEntries_eq_meta, List.getElem?_map, hm]
  rfl

/-- C1 (amended): for every input string, every token emitted by the tokenizer
whose length is at most 63, whose block index is at most 63 and whose start
offset is below `2 ^ 17` — the widths reserved by the packed
`offset << 14 | length << 8 | block << 2` encoding — carries a position
reference such that decoding the table entry exactly as the highlighter does
(`offset = entry >> 14`, `length = entry >> 8 & 0x3F`) and slicing the
original string at `[offset, offset + length)` yields, after lowercasing, the
token's stored text.  The original claim asserts this with no precondition on
token length or block count; `c1_roundtrip_counterexample` refutes that. -/
theorem c1_roundtrip (isSep : Char → Bool) (v : List Char) (k : Nat)
    (m : Nat × Nat × Nat) (tok : Token)
    (hm : (tokenMeta isSep v)[k]? = some m)
    (htok : (tokenizer isSep v).1[k]? = some tok)
    (hlen : m.2.1 ≤ 63) (hblk : m.2.2 ≤ 63) (hoff : m.1 < 131072) :
    ∃ e, (tokenizer isSep v).2[tok.ref]? = some e ∧
      (jsSlice v (e >>> 14) ((e >>> 14) + ((e >>> 8) &&& 0x3F))).map Char.toLower
        = tok.text := by
  obtain ⟨href, htext, htab⟩ := tokenizer_spec isSep v k m tok hm htok
  refine ⟨pack m.1 m.2.1 m.2.2, by rw [href]; exact htab, ?_⟩
  rw [decode_offset m.1 m.2.1 m.2.2 hoff hlen hblk,
    decode_len m.1 m.2.1 m.2.2 hoff hlen hblk, htext]

/-- C1 witness: the round-trip theorem applied to the concrete string `"ab"`,
whose single token `"ab"` satisfies all three width bounds. -/
theorem c1_roundtrip_witness :
    ∃ e, (tokenizer defaultSeparator "ab".toList).2[(⟨['a', 'b'], 1⟩ : Token).ref]?
        = some e ∧
      (jsSlice "ab".toList (e >>> 14)
          ((e >>> 14) + ((e >>> 8) &&& 0x3F))).map Char.toLower
        = (⟨['a', 'b'], 1⟩ : Token).text :=
  c1_roundtrip defaultSeparator "ab".toList 0 (0, 2, 0) ⟨['a', 'b'], 1⟩
    (by decide) (by decide) (by decide) (by decide) (by decide)

/-- C1 counterexample: a single run of 64 letters `a` is emitted as one token,
but its length 64 overflows the 6-bit length field of the packed entry
(`64 << 8 = 16384`), so the highlighter's decoding reads offset `1` and length
`0` and the recovered slice is empty — not the token's text.  The round-trip
therefore does not hold without a precondition on the token length. -/
theorem c1_roundtrip_counterexample :
    (tokenizer defaultSeparator (List.replicate 64 'a')).1[0]?
        = some ⟨List.replicate 64 'a', 1⟩ ∧
      (tokenizer defaultSeparator (List.replicate 64 'a')).2[1]? = some 16384 ∧
      (jsSlice (List.replicate 64 'a') (16384 >>> 14)
          ((16384 >>> 14) + ((16384 >>> 8) &&& 0x3F))).map Char.toLower
        ≠ List.replicate 64 'a' := by
  decide

/-! ### Sorting of positions and descending-offset insertion -/

theorem pairwise_imp_mem {α : Type} {R S : α → α → Prop} :
    ∀ {l : List α}, (∀ a ∈ l, ∀ b ∈ l, R a b → S a b) →
      List.Pairwise R l → List.Pairwise S l := by
  intro l
  induction l with
  | nil => intro _ _; exact List.Pairwise.nil
  | cons x xs ih =>
      intro hi hp
      rcases List.pairwise_cons.mp hp with ⟨hx, hxs⟩
      refine List.pairwise_cons.mpr ⟨?_, ih ?_ hxs⟩
      · intro b hb
        exact hi x (List.mem_cons_self x xs) b (List.mem_cons_of_mem x hb) (hx b hb)
      · intro a ha b hb hr
        exact hi a (List.mem_cons_of_mem x ha) b (List.mem_cons_of_mem x hb) hr

theorem strictify {α : Type} {k : α → Nat} {l : List α}
    (hs : List.Pairwise (fun a b => k b ≤ k a) l)
    (hne : List.Pairwise (fun a b => k a ≠ k b) l) :
    List.Pairwise (fun a b => k b < k a) l :=
  List.Pairwise.imp₂ (fun _ _ h1 h2 => lt_of_le_of_ne h1 fun he => h2 he.symm) hs hne

theorem eq_of_perm_sorted_strict {α : Type} {k : α → Nat} {l₁ l₂ : List α}
    (hp : List.Perm l₁ l₂)
    (h₁ : List.Pairwise (fun a b => k b < k a) l₁)
    (h₂ : List.Pairwise (fun a b => k b < k a) l₂) : l₁ = l₂ := by
  haveI : IsAntisymm α fun a b => k b < k a :=
    ⟨fun _ _ h1 h2 => absurd (Nat.lt_trans h1 h2) (Nat.lt_irrefl _)⟩
  exact List.eq_of_perm_of_sorted hp h₁ h₂

theorem spanDisjoint_symm {s t : Nat × Nat} (h : spanDisjoint s t) :
    spanDisjoint t s :=
  h.symm

theorem sortPositions_sorted (ps : List Position) :
    List.Pairwise (fun a b : Position => b.index ≤ a.index) (sortPositions ps) :=
  List.sorted_insertionSort _ ps

theorem pairwise_ne_index {T : List Nat} {ps : List Position}
    (hT : ∀ p ∈ ps, p.table = T)
    (hpos : ∀ p ∈ ps, 0 < (decodeSpan p).2)
    (hdisj : List.Pairwise (fun p q => spanDisjoint (decodeSpan p) (decodeSpan q)) ps) :
    List.Pairwise (fun p q : Position => p.index ≠ q.index) ps := by
  refine pairwise_imp_mem ?_ hdisj
  intro p hp q hq hd he
  have hdec : decodeSpan p = decodeSpan q := by
    unfold decodeSpan
    rw [hT p hp, hT q hq, he]
  have hp1 := hpos p hp
  have hq1 := hpos q hq
  rcases hd with h1 | h2
  · rw [hdec] at h1 hp1
    omega
  · rw [hdec] at h2 hp1
    omega

theorem sortPositions_strict {T : List Nat} {ps : List Position}
    (hT : ∀ p ∈ ps, p.table = T)
    (hpos : ∀ p ∈ ps, 0 < (decodeSpan p).2)
    (hdisj : List.Pairwise (fun p q => spanDisjoint (decodeSpan p) (decodeSpan q)) ps) :
    List.Pairwise (fun a b : Position => b.index < a.index) (sortPositions ps) := by
  have hperm : List.Perm (sortPositions ps) ps := List.perm_insertionSort _ ps
  have hne := pairwise_ne_index hT hpos hdisj
  have hneS : List.Pairwise (fun p q : Position => p.index ≠ q.index) (sortPositions ps) :=
    (List.Perm.pairwise_iff (by intro a b h he; exact h he.symm) hperm.symm).mp hne
  exact strictify (k := Position.index) (sortPositions_sorted ps) hneS

theorem sortPositions_spans_strict {T : List Nat} {ps : List Position}
    (hT : ∀ p ∈ ps, p.table = T)
    (hpos : ∀ p ∈ ps, 0 < (decodeSpan p).2)
    (hdisj : List.Pairwise (fun p q => spanDisjoint (decodeSpan p) (decodeSpan q)) ps)
    (hmono : ∀ p ∈ ps, ∀ q ∈ ps, p.index ≤ q.index →
      (decodeSpan p).1 ≤ (decodeSpan q).1) :
    List.Pairwise (fun s t : Nat × Nat => t.1 < s.1)
      ((sortPositions ps).map decodeSpan) := by
  refine List.pairwise_map.mpr ?_
  have hstrict := sortPositions_strict hT hpos hdisj
  have hperm : List.Perm (sortPositions ps) ps := List.perm_insertionSort _ ps
  have hdisjS :
      List.Pairwise (fun p q => spanDisjoint (decodeSpan p) (decodeSpan q))
        (sortPositions ps) :=
    (List.Perm.pairwise_iff (by intro a b h; exact spanDisjoint_symm h) hperm.symm).mp hdisj
  have hboth := List.Pairwise.imp₂ (fun (a b : Position) h1 h2 =>
    And.intro h1 h2) hstrict hdisjS
  refine pairwise_imp_mem ?_ hboth
  intro p hp q hq hpq
  have hle : (decodeSpan q).1 ≤ (decodeSpan p).1 :=
    hmono q (hperm.mem_iff.mp hq) p (hperm.mem_iff.mp hp) (Nat.le_of_lt hpq.1)
  have hq1 := hpos q (hperm.mem_iff.mp hq)
  have hp1 := hpos p (hperm.mem_iff.mp hp)
  rcases hpq.2 with h1 | h2 <;> omega

/-- C10: the highlighter mutates its positions argument — it sorts the
caller's array in place, descending by packed index.  Modelling the final
contents of the array as the second component of the result: for every call
with at least two positions whose list is not already sorted descending by
index, the final contents are a permutation of the original list and differ
from it. -/
theorem c10_highlighter_mutates (v : List Char) (ps : List Position)
    (_hlen : 2 ≤ ps.length)
    (hunsorted : ¬ List.Pairwise (fun a b : Position => b.index ≤ a.index) ps) :
    List.Perm (highlighter v ps).2 ps ∧ (highlighter v ps).2 ≠ ps := by
  have h2 : (highlighter v ps).2 = sortPositions ps := rfl
  rw [h2]
  refine ⟨List.perm_insertionSort _ ps, ?_⟩
  intro he
  exact hunsorted (he ▸ sortPositions_sorted ps)

/-- C10 witness: two positions in ascending index order are permuted by the
call. -/
theorem c10_highlighter_mutates_witness :
    List.Perm
        (highlighter [] [⟨[0], 0⟩, ⟨[0], 1⟩]).2 [⟨[0], 0⟩, ⟨[0], 1⟩] ∧
      (highlighter [] [⟨[0], 0⟩, ⟨[0], 1⟩]).2 ≠ [⟨[0], 0⟩, ⟨[0], 1⟩] :=
  c10_highlighter_mutates [] [⟨[0], 0⟩, ⟨[0], 1⟩] (by decide) (by decide)

/-- C7 (amended): for every string and every list of position references into
one shared table whose decoded spans are pairwise non-overlapping with
positive lengths and whose decoded offsets are monotone in the packed index
(as holds for every table the tokenizer builds), the highlighter's output is
independent of the input order of the positions, and equals the insertion of
the markers at the decoded spans from the highest offset to the lowest.  The
original claim assumes only non-overlap; `c7_descending_offset_counterexample`
shows it fails when the table's offsets are not monotone in the index, because
the code sorts by index, not by offset. -/
theorem c7_descending_offset (v : List Char) (T : List Nat) (ps : List Position)
    (_hlen : 2 ≤ ps.length)
    (hT : ∀ p ∈ ps, p.table = T)
    (hpos : ∀ p ∈ ps, 0 < (decodeSpan p).2)
    (hdisj : List.Pairwise (fun p q => spanDisjoint (decodeSpan p) (decodeSpan q)) ps)
    (hmono : ∀ p ∈ ps, ∀ q ∈ ps, p.index ≤ q.index →
      (decodeSpan p).1 ≤ (decodeSpan q).1) :
    (∀ qs : List Position, List.Perm qs ps → highlighter v qs = highlighter v ps) ∧
      (highlighter v ps).1 = insertDescending v (ps.map decodeSpan) := by
  constructor
  · intro qs hq
    have hTq : ∀ p ∈ qs, p.table = T := fun p hp => hT p (hq.mem_iff.mp hp)
    have hposq : ∀ p ∈ qs, 0 < (decodeSpan p).2 := fun p hp =>
      hpos p (hq.mem_iff.mp hp)
    have hdisjq :
        List.Pairwise (fun p q => spanDisjoint (decodeSpan p) (decodeSpan q)) qs :=
      (List.Perm.pairwise_iff (by intro a b h; exact spanDisjoint_symm h) hq).mpr hdisj
    have h1 := sortPositions_strict hT hpos hdisj
    have h2 := sortPositions_strict hTq hposq hdisjq
    have hp2 : List.Perm (sortPositions qs) (sortPositions ps) :=
      (List.perm_insertionSort _ qs).trans (hq.trans (List.perm_insertionSort _ ps).symm)
    have heq : sortPositions qs = sortPositions ps :=
      eq_of_perm_sorted_strict (k := Position.index) hp2 h2 h1
    simp only [highlighter, heq]
  · have hS := sortPositions_spans_strict hT hpos hdisj hmono
    have hpermmap :
        List.Perm ((sortPositions ps).map decodeSpan) (ps.map decodeSpan) :=
      (List.perm_insertionSort _ ps).map decodeSpan
    have hRHSperm :
        List.Perm (List.insertionSort (fun a b : Nat × Nat => b.1 ≤ a.1)
          (ps.map decodeSpan)) (ps.map decodeSpan) :=
      List.perm_insertionSort _ _
    have hRHSsorted :
        List.Pairwise (fun s t : Nat × Nat => t.1 ≤ s.1)
          (List.insertionSort (fun a b : Nat × Nat => b.1 ≤ a.1)
            (ps.map decodeSpan)) :=
      List.sorted_insertionSort _ _
    have hneOff : List.Pairwise (fun s t : Nat × Nat => s.1 ≠ t.1)
        (ps.map decodeSpan) := by
      refine List.pairwise_map.mpr ?_
      refine pairwise_imp_mem ?_ hdisj
      intro p hp q hq hd he
      have hp1 := hpos p hp
      have hq1 := hpos q hq
      rcases hd with h1 | h2 <;> omega
    have hneOffR : List.Pairwise (fun s t : Nat × Nat => s.1 ≠ t.1)
        (List.insertionSort (fun a b : Nat × Nat => b.1 ≤ a.1)
          (ps.map decodeSpan)) :=
      (List.Perm.pairwise_iff (by intro a b h he; exact h he.symm) hRHSperm.symm).mp hneOff
    have hRHSstrict := strictify (k := fun s : Nat × Nat => s.1) hRHSsorted hneOffR
    have heq2 : (sortPositions ps).map decodeSpan
        = List.insertionSort (fun a b : Nat × Nat => b.1 ≤ a.1) (ps.map decodeSpan) :=
      eq_of_perm_sorted_strict (k := fun s : Nat × Nat => s.1)
        (hpermmap.trans hRHSperm.symm) hS hRHSstrict
    show (sortPositions ps).foldl
        (fun acc p => insertMark acc (decodeSpan p).1 (decodeSpan p).2) v = _
    unfold insertDescending
    rw [← heq2, List.foldl_map]

/-- C7 witness: a two-entry table whose offsets rise with the index; the two
positions may be given in either order and the result is the descending-offset
insertion. -/
theorem c7_descending_offset_witness :
    highlighter "abcdef".toList [⟨[256, 82176], 1⟩, ⟨[256, 82176], 0⟩]
        = highlighter "abcdef".toList [⟨[256, 82176], 0⟩, ⟨[256, 82176], 1⟩] ∧
      (highlighter "abcdef".toList [⟨[256, 82176], 0⟩, ⟨[256, 82176], 1⟩]).1
        = insertDescending "abcdef".toList
            ([⟨[256, 82176], 0⟩, (⟨[256, 82176], 1⟩ : Position)].map decodeSpan) := by
  have h := c7_descending_offset "abcdef".toList [256, 82176]
    [⟨[256, 82176], 0⟩, ⟨[256, 82176], 1⟩]
    (by decide) (by decide) (by decide) (by decide) (by decide)
  exact ⟨h.1 _ (by decide), h.2⟩

/-- C7 counterexample: the claim as stated quantifies over every list of
position references with pairwise non-overlapping decoded spans.  A table
whose offsets fall as the index rises — `[pack 5 1 0, pack 0 1 0]` — defeats
it: the highlighter sorts by index, processes the offset-0 span first and then
corrupts the shifted string, so its output differs from the descending-offset
insertion. -/
theorem c7_descending_offset_counterexample :
    List.Pairwise (fun p q => spanDisjoint (decodeSpan p) (decodeSpan q))
        [⟨[82176, 256], 0⟩, (⟨[82176, 256], 1⟩ : Position)] ∧
      (highlighter "abcdef".toList [⟨[82176, 256], 0⟩, ⟨[82176, 256], 1⟩]).1
        ≠ insertDescending "abcdef".toList
            ([⟨[82176, 256], 0⟩, (⟨[82176, 256], 1⟩ : Position)].map decodeSpan) := by
  decide

/-! ### Error handling and the empty query -/

/-- C2: for every query whose parsing or execution by the underlying index
throws — modelled as the parser or the index search returning an error —
`Search.search` returns the empty result instead of propagating the
exception. -/
theorem c2_search_never_throws (documents : String → Option SearchDocument)
    (parse : String → Except Unit (List Clause))
    (indexSearch : String → Except Unit (List Hit))
    (hl : String → String → String → List Position → String)
    (suggestEnabled : Bool) (titleSearch : List Clause → List Hit) (query : String)
    (herr : parse query = Except.error () ∨ indexSearch query = Except.error ()) :
    searchFn documents parse indexSearch hl suggestEnabled titleSearch query
      = ⟨[], none⟩ := by
  unfold searchFn
  by_cases hq : query = ""
  · rw [if_pos hq]
  · rw [if_neg hq]
    rcases herr with h | h
    · rw [h]
    · cases hp : parse query with
      | error e => rfl
      | ok parsed =>
          rw [h]

/-- C2 witness: a query on which the parser throws yields the empty result. -/
theorem c2_search_never_throws_witness :
    searchFn (fun _ => none) (fun _ => Except.error ()) (fun _ => Except.ok [])
      (fun _ _ s _ => s) false (fun _ => []) "\"" = ⟨[], none⟩ :=
  c2_search_never_throws (fun _ => none) (fun _ => Except.error ())
    (fun _ => Except.ok []) (fun _ _ s _ => s) false (fun _ => []) "\""
    (Or.inl rfl)

/-- C9: for the empty (falsy) query string, `Search.search` returns the empty
result without consulting the underlying index at all — the result is the same
whatever the parser, the index and the highlighter do, so no clause is parsed,
no hit is scored and no exception can escape. -/
theorem c9_empty_query (documents : String → Option SearchDocument)
    (parse : String → Except Unit (List Clause))
    (indexSearch : String → Except Unit (List Hit))
    (hl : String → String → String → List Position → String)
    (suggestEnabled : Bool) (titleSearch : List Clause → List Hit) :
    searchFn documents parse indexSearch hl suggestEnabled titleSearch ""
      = ⟨[], none⟩ := rfl

/-! ### The post-query boost -/

theorem searchItems_eq (documents : String → Option SearchDocument)
    (hl : String → String → String → List Position → String)
    (clauses : List Clause) :
    ∀ hits : List Hit, searchItems documents hl clauses hits
      = hits.filterMap (mkItem documents hl clauses) := by
  have haux : ∀ (hits : List Hit) (acc : List ResultDoc),
      hits.foldl (itemStep documents hl clauses) acc
        = acc ++ hits.filterMap (mkItem documents hl clauses) := by
    intro hits
    induction hits with
    | nil => intro acc; simp
    | cons h rest ih =>
        intro acc
        rw [List.foldl_cons]
        cases hm : mkItem documents hl clauses h with
        | none =>
            have hstep : itemStep documents hl clauses acc h = acc := by
              unfold itemStep
              rw [hm]
            rw [hstep, ih]
            simp [List.filterMap_cons, hm]
        | some r =>
            have hstep : itemStep documents hl clauses acc h = acc ++ [r] := by
              unfold itemStep
              rw [hm]
            rw [hstep, ih]
            simp [List.filterMap_cons, hm]
  intro hits
  unfold searchItems
  rw [haux]
  simp

theorem setField_location (d : SearchDocument) (f s : String) :
    (setField d f s).location = d.location := by
  unfold setField
  split_ifs <;> rfl

theorem setField_parent (d : SearchDocument) (f s : String) :
    (setField d f s).parent = d.parent := by
  unfold setField
  split_ifs <;> rfl

theorem foldl_setField_keeps
    (F : SearchDocument → String × List Position → String) :
    ∀ (fm : List (String × List Position)) (d : SearchDocument),
      ((fm.foldl (fun d fe => setField d fe.1 (F d fe)) d).location = d.location) ∧
        ((fm.foldl (fun d fe => setField d fe.1 (F d fe)) d).parent = d.parent) := by
  intro fm
  induction fm with
  | nil => intro d; exact ⟨rfl, rfl⟩
  | cons fe rest ih =>
      intro d
      rw [List.foldl_cons]
      have h := ih (setField d fe.1 (F d fe))
      exact ⟨h.1.trans (setField_location _ _ _), h.2.trans (setField_parent _ _ _)⟩

theorem mkItem_some (documents : String → Option SearchDocument)
    (hl : String → String → String → List Position → String)
    (clauses : List Clause) (h : Hit) (r : ResultDoc)
    (hm : mkItem documents hl clauses h = some r) :
    ∃ doc, documents h.ref = some doc ∧
      r.location = doc.location ∧ r.parent = doc.parent ∧
      r.terms = getSearchQueryTerms clauses (h.matchData.map fun e => e.1) ∧
      r.score = h.score *
        (1 + boostOf doc
          (getSearchQueryTerms clauses (h.matchData.map fun e => e.1)) ^ 2) := by
  unfold mkItem at hm
  cases hd : documents h.ref with
  | none =>
      rw [hd] at hm
      exact absurd hm (by simp)
  | some doc =>
      rw [hd] at hm
      simp only [Option.some.injEq] at hm
      subst hm
      have hk := foldl_setField_keeps
        (fun d fe => hl d.location fe.1 (getField d fe.1) fe.2)
        (aggregateMatches h.matchData) doc
      exact ⟨doc, rfl, hk.1, hk.2, rfl, rfl⟩

/-- C4: for every hit whose document resolves, the result-assembly step emits
an item whose adjusted score equals the raw score multiplied by `1 + boost²`,
where the boost is one when the document has no parent (it is an article) plus
the number of query terms marked matched divided by the total number of terms
in the terms map. -/
theorem c4_boost_formula (documents : String → Option SearchDocument)
    (hl : String → String → String → List Position → String)
    (clauses : List Clause) (hits : List Hit) (h : Hit) (doc : SearchDocument)
    (hmem : h ∈ hits) (hdoc : documents h.ref = some doc) :
    ∃ r ∈ searchItems documents hl clauses hits,
      r.location = doc.location ∧
        r.terms = getSearchQueryTerms clauses (h.matchData.map fun e => e.1) ∧
        r.score = h.score *
          (1 + ((if doc.parent = none then 1 else 0) +
            ((r.terms.filter fun t => t.2).length : ℚ) / (r.terms.length : ℚ)) ^ 2) := by
  cases hmk : mkItem documents hl clauses h with
  | none =>
      unfold mkItem at hmk
      rw [hdoc] at hmk
      exact absurd hmk (by simp)
  | some r =>
      obtain ⟨doc2, hdoc2, hloc, _, hterms, hscore⟩ :=
        mkItem_some documents hl clauses h r hmk
      rw [hdoc] at hdoc2
      cases hdoc2
      refine ⟨r, ?_, hloc, hterms, ?_⟩
      · rw [searchItems_eq]
        exact List.mem_filterMap.mpr ⟨h, hmem, hmk⟩
      · rw [hscore, hterms]
        rfl

/-- C4 witness: the theorem applied to one concrete hit on an article. -/
theorem c4_boost_formula_witness :
    ∃ r ∈ searchItems
        (fun loc => if loc = "a" then some ⟨"a", "T", "X", none⟩ else none)
        (fun _ _ s _ => s) [⟨"x", Presence.optional⟩]
        [⟨"a", 1, [("x", [("text", [])])]⟩],
      r.location = (⟨"a", "T", "X", none⟩ : SearchDocument).location ∧
        r.terms = getSearchQueryTerms [⟨"x", Presence.optional⟩]
          (([("x", [("text", ([] : List Position))])]).map fun e => e.1) ∧
        r.score = (1 : ℚ) *
          (1 + ((if (none : Option String) = none then 1 else 0) +
            ((r.terms.filter fun t => t.2).length : ℚ) / (r.terms.length : ℚ)) ^ 2) :=
  c4_boost_formula
    (fun loc => if loc = "a" then some ⟨"a", "T", "X", none⟩ else none)
    (fun _ _ s _ => s) [⟨"x", Presence.optional⟩]
    [⟨"a", 1, [("x", [("text", [])])]⟩]
    ⟨"a", 1, [("x", [("text", [])])]⟩ ⟨"a", "T", "X", none⟩
    (List.mem_singleton.mpr rfl) (by decide)

/-! ### Grouping machinery -/

theorem mapGet_some (m : List (String × List ResultDoc)) (k : String)
    (v : List ResultDoc) (h : mapGet m k = some v) :
    ∃ g, g ∈ m ∧ g.1 = k ∧ g.2 = v := by
  unfold mapGet at h
  cases hf : m.find? (fun q => q.1 = k) with
  | none => rw [hf] at h; simp at h
  | some g =>
      rw [hf] at h
      simp only [Option.map_some', Option.some.injEq] at h
      have hp := List.find?_some hf
      exact ⟨g, List.mem_of_find?_eq_some hf, of_decide_eq_true hp, h⟩

theorem mapSet_mem (m : List (String × List ResultDoc)) (k : String)
    (v : List ResultDoc) (g : String × List ResultDoc)
    (hg : g ∈ mapSet m k v) : g ∈ m ∨ g = (k, v) := by
  unfold mapSet at hg
  split_ifs at hg with hc
  · rcases List.mem_map.mp hg with ⟨q, hq, hqe⟩
    by_cases hqk : q.1 = k
    · right; rw [← hqe, if_pos hqk]
    · left; rw [← hqe, if_neg hqk]; exact hq
  · rcases List.mem_append.mp hg with h | h
    · exact Or.inl h
    · exact Or.inr (List.mem_singleton.mp h)

theorem groupItems_members (documents : String → Option SearchDocument)
    (P : ResultDoc → Prop) :
    ∀ (l : List ResultDoc) (acc : List (String × List ResultDoc)),
      (∀ g ∈ acc, ∀ e ∈ g.2, P e) → (∀ r ∈ l, P r) →
      ∀ g ∈ l.foldl (groupStep documents) acc, ∀ e ∈ g.2, P e := by
  intro l
  induction l with
  | nil => intro acc hacc _ g hg; exact hacc g hg
  | cons r rest ih =>
      intro acc hacc hl g hg
      rw [List.foldl_cons] at hg
      refine ih _ ?_ (fun x hx => hl x (List.mem_cons_of_mem r hx)) g hg
      intro g2 hg2 e he
      unfold groupStep at hg2
      cases hpr : parentRef documents r with
      | none => rw [hpr] at hg2; exact hacc g2 hg2 e he
      | some ref =>
          rw [hpr] at hg2
          rcases mapSet_mem _ _ _ _ hg2 with h | heq
          · exact hacc g2 h e he
          · rw [heq] at he
            rcases List.mem_append.mp he with h2 | h2
            · cases hmg : mapGet acc ref with
              | none => rw [hmg] at h2; simp at h2
              | some v =>
                  rw [hmg] at h2
                  obtain ⟨g3, hg3, _, hv⟩ := mapGet_some acc ref v hmg
                  exact hacc g3 hg3 e (hv ▸ h2)
            · rw [List.mem_singleton.mp h2]
              exact hl r (List.mem_cons_self r rest)

theorem groupItems_sublist (documents : String → Option SearchDocument) :
    ∀ (l : List ResultDoc) (acc : List (String × List ResultDoc))
      (done : List ResultDoc),
      (∀ g ∈ acc, List.Sublist g.2 done) →
      ∀ g ∈ l.foldl (groupStep documents) acc,
        List.Sublist g.2 (done ++ l) := by
  intro l
  induction l with
  | nil =>
      intro acc done hacc g hg
      simpa using hacc g hg
  | cons r rest ih =>
      intro acc done hacc g hg
      rw [List.foldl_cons] at hg
      have hstep : ∀ g2 ∈ groupStep documents acc r,
          List.Sublist g2.2 (done ++ [r]) := by
        intro g2 hg2
        unfold groupStep at hg2
        cases hpr : parentRef documents r with
        | none =>
            rw [hpr] at hg2
            exact (hacc g2 hg2).trans (List.sublist_append_left done [r])
        | some ref =>
            rw [hpr] at hg2
            rcases mapSet_mem _ _ _ _ hg2 with h | heq
            · exact (hacc g2 h).trans (List.sublist_append_left done [r])
            · have hold : List.Sublist ((mapGet acc ref).getD []) done := by
                cases hmg : mapGet acc ref with
                | none => simp
                | some v =>
                    obtain ⟨g3, hg3, _, hv⟩ := mapGet_some acc ref v hmg
                    simpa [hv] using hacc g3 hg3
              rw [heq]
              exact List.Sublist.append hold (List.Sublist.refl [r])
      have := ih (groupStep documents acc r) (done ++ [r]) hstep g hg
      have harr : (done ++ [r]) ++ rest = done ++ r :: rest := by simp
      rwa [harr] at this

theorem groupItems_keys (documents : String → Option SearchDocument)
    (P : ResultDoc → Prop) :
    ∀ (l : List ResultDoc) (acc : List (String × List ResultDoc)),
      (∀ g ∈ acc, ∃ r, P r ∧ parentRef documents r = some g.1) →
      (∀ r ∈ l, P r) →
      ∀ g ∈ l.foldl (groupStep documents) acc,
        ∃ r, P r ∧ parentRef documents r = some g.1 := by
  intro l
  induction l with
  | nil => intro acc hacc _ g hg; exact hacc g hg
  | cons r rest ih =>
      intro acc hacc hl g hg
      rw [List.foldl_cons] at hg
      refine ih _ ?_ (fun x hx => hl x (List.mem_cons_of_mem r hx)) g hg
      intro g2 hg2
      unfold groupStep at hg2
      cases hpr : parentRef documents r with
      | none => rw [hpr] at hg2; exact hacc g2 hg2
      | some ref =>
          rw [hpr] at hg2
          rcases mapSet_mem _ _ _ _ hg2 with h | heq
          · exact hacc g2 h
          · refine ⟨r, hl r (List.mem_cons_self r rest), ?_⟩
            rw [hpr, heq]

theorem fixGroups_members (documents : String → Option SearchDocument)
    (l : List ResultDoc) (g : String × List ResultDoc)
    (hg : g ∈ fixGroups documents (groupItems documents l)) (e : ResultDoc)
    (he : e ∈ g.2) : e ∈ l ∨ (e.score = 0 ∧ e.terms = []) := by
  rcases List.mem_map.mp hg with ⟨g0, hg0, rfl⟩
  have hmem : ∀ x ∈ g0.2, x ∈ l :=
    groupItems_members documents (fun x => x ∈ l) l [] (by simp) (fun r hr => hr) g0 hg0
  by_cases hc : g0.2.any (fun item => item.location = g0.1) = true
  · rw [if_pos hc] at he
    exact Or.inl (hmem e he)
  · rw [if_neg hc] at he
    cases hd : documents g0.1 with
    | some doc =>
        rw [hd] at he
        rcases List.mem_append.mp he with h2 | h2
        · exact Or.inl (hmem e h2)
        · rw [List.mem_singleton.mp h2]
          exact Or.inr ⟨rfl, rfl⟩
    | none =>
        rw [hd] at he
        rcases List.mem_append.mp he with h2 | h2
        · exact Or.inl (hmem e h2)
        · rw [List.mem_singleton.mp h2]
          exact Or.inr ⟨rfl, rfl⟩

/-! ### Prohibited clauses and the terms map -/

theorem dedupKeysGo_sub :
    ∀ (l : List (String × Bool)) (seen : List String) (p : String × Bool),
      p ∈ dedupKeysGo seen l → p ∈ l := by
  intro l
  induction l with
  | nil => intro seen p hp; simp [dedupKeysGo] at hp
  | cons q rest ih =>
      intro seen p hp
      rw [dedupKeysGo] at hp
      by_cases hq : q.1 ∈ seen
      · rw [if_pos hq] at hp
        exact List.mem_cons_of_mem q (ih _ p hp)
      · rw [if_neg hq] at hp
        rcases List.mem_cons.mp hp with rfl | hp2
        · exact List.mem_cons_self _ _
        · exact List.mem_cons_of_mem q (ih _ p hp2)

theorem terms_key_mem (clauses : List Clause) (matched : List String) (t : String)
    (ht : t ∈ (getSearchQueryTerms clauses matched).map Prod.fst) :
    ∃ c ∈ clauses, c.term = t := by
  unfold getSearchQueryTerms at ht
  rcases List.mem_map.mp ht with ⟨p, hp, hpt⟩
  have hmem := dedupKeysGo_sub _ [] p hp
  rcases List.mem_map.mp hmem with ⟨c, hc, hcp⟩
  exact ⟨c, hc, by rw [← hpt, ← hcp]⟩

/-- C5 (amended): clauses marked PROHIBITED are filtered out before
term-coverage analysis, so a term appears as a key of the computed terms map
of a returned result document only when some non-prohibited clause carries it;
a term carried only by prohibited clauses (such as `"foo"` in `"-foo bar"`)
never appears.  The original claim — that a prohibited clause's term never
appears at all — fails when the same term also occurs in a non-prohibited
clause; see `c5_prohibited_excluded_counterexample`. -/
theorem c5_prohibited_excluded (documents : String → Option SearchDocument)
    (parse : String → Except Unit (List Clause))
    (indexSearch : String → Except Unit (List Hit))
    (hl : String → String → String → List Position → String)
    (suggestEnabled : Bool) (titleSearch : List Clause → List Hit)
    (query : String) (parsed : List Clause) (hits : List Hit) (t : String)
    (hp : parse query = Except.ok parsed)
    (hs : indexSearch query = Except.ok hits)
    (ht : ∀ c ∈ parsed, c.term = t → c.presence = Presence.prohibited) :
    (∀ c ∈ parsed.filter (fun c => c.presence ≠ Presence.prohibited),
        c.presence ≠ Presence.prohibited) ∧
      ∀ grp ∈ (searchFn documents parse indexSearch hl suggestEnabled
          titleSearch query).items,
        ∀ r ∈ grp, t ∉ r.terms.map Prod.fst := by
  constructor
  · intro c hc
    exact of_decide_eq_true (List.mem_filter.mp hc).2
  · intro grp hgrp r hr htk
    by_cases hq : query = ""
    · rw [hq] at hgrp
      simp [searchFn] at hgrp
    · rw [searchFn, if_neg hq, hp, hs] at hgrp
      simp only [List.mem_map] at hgrp
      obtain ⟨g, hg, rfl⟩ := hgrp
      rcases fixGroups_members documents _ g hg r hr with hmem | hsynth
      · have hperm : List.Perm
            (sortItems (searchItems documents hl
              (parsed.filter fun c => c.presence ≠ Presence.prohibited) hits))
            (searchItems documents hl
              (parsed.filter fun c => c.presence ≠ Presence.prohibited) hits) :=
          List.perm_insertionSort _ _
        have hmem2 := hperm.mem_iff.mp hmem
        rw [searchItems_eq] at hmem2
        rcases List.mem_filterMap.mp hmem2 with ⟨h, _, hmk⟩
        obtain ⟨doc, _, _, _, hterms, _⟩ := mkItem_some documents hl _ h r hmk
        rw [hterms] at htk
        obtain ⟨c, hc, hct⟩ := terms_key_mem _ _ t htk
        have hcp := List.mem_filter.mp hc
        exact absurd (ht c hcp.1 hct) (of_decide_eq_true hcp.2)
      · rw [hsynth.2] at htk
        simp at htk

/-- C5 witness: for the query `"-foo bar"` — `"foo"` only in a prohibited
clause — no returned result reports `"foo"` in its terms map. -/
theorem c5_prohibited_excluded_witness :
    (∀ c ∈ (parseSearchQuery "-foo bar").filter
        (fun c => c.presence ≠ Presence.prohibited),
        c.presence ≠ Presence.prohibited) ∧
      ∀ grp ∈ (searchFn exDocs (fun q => Except.ok (parseSearchQuery q))
          (fun _ => Except.ok [exHitFoo]) exHl false (fun _ => [])
          "-foo bar").items,
        ∀ r ∈ grp, "foo" ∉ r.terms.map Prod.fst :=
  c5_prohibited_excluded exDocs (fun q => Except.ok (parseSearchQuery q))
    (fun _ => Except.ok [exHitFoo]) exHl false (fun _ => [])
    "-foo bar" (parseSearchQuery "-foo bar") [exHitFoo] "foo"
    rfl rfl (by decide)

/-- C5 counterexample: for the query `"-foo foo"` the prohibited clause for
`"foo"` is filtered out, but the second, optional clause carries the same
term, so `"foo"` does appear as a key of the terms map of the returned
result — the claim's "its term never appears as a key" is too strong. -/
theorem c5_prohibited_excluded_counterexample :
    ∃ grp ∈ (searchFn exDocs (fun q => Except.ok (parseSearchQuery q))
        (fun _ => Except.ok [exHitFoo]) exHl false (fun _ => [])
        "-foo foo").items,
      ∃ r ∈ grp, "foo" ∈ r.terms.map Prod.fst := by
  with_unfolding_all decide

/-! ### Grouping completeness -/

theorem mkItem_none_iff (documents : String → Option SearchDocument)
    (hl : String → String → String → List Position → String)
    (clauses : List Clause) (h : Hit) :
    mkItem documents hl clauses h = none ↔ documents h.ref = none := by
  unfold mkItem
  cases hd : documents h.ref <;> simp

theorem searchItems_locations (documents : String → Option SearchDocument)
    (hl : String → String → String → List Position → String)
    (clauses : List Clause)
    (hcoh : ∀ loc doc, documents loc = some doc → doc.location = loc) :
    ∀ hits : List Hit,
      (searchItems documents hl clauses hits).map (fun r => r.location)
        = (hits.filter fun h => (documents h.ref).isSome).map Hit.ref := by
  intro hits
  rw [searchItems_eq]
  induction hits with
  | nil => simp
  | cons h rest ih =>
      rw [List.filterMap_cons, List.filter_cons]
      cases hmk : mkItem documents hl clauses h with
      | none =>
          have hd : documents h.ref = none :=
            (mkItem_none_iff documents hl clauses h).mp hmk
          simp only [hd, Option.isSome_none]
          simpa using ih
      | some r =>
          cases hd : documents h.ref with
          | none =>
              exact absurd hmk (by rw [(mkItem_none_iff documents hl clauses h).mpr hd]; simp)
          | some doc =>
              obtain ⟨doc2, hdoc2, hloc, _, _, _⟩ :=
                mkItem_some documents hl clauses h r hmk
              rw [hd] at hdoc2
              cases hdoc2
              simp only [hd, Option.isSome_some, if_true, List.map_cons]
              rw [ih, hloc, hcoh h.ref doc hd]

theorem countP_le_one_of_nodup_map {l : List ResultDoc} {k : String}
    (h : (l.map fun r => r.location).Nodup) :
    l.countP (fun e => e.location = k) ≤ 1 := by
  induction l with
  | nil => simp
  | cons x rest ih =>
      rw [List.map_cons, List.nodup_cons] at h
      rw [List.countP_cons]
      by_cases hx : x.location = k
      · have h0 : rest.countP (fun e => e.location = k) = 0 := by
          rw [List.countP_eq_zero]
          intro e he hek
          have hek2 := of_decide_eq_true hek
          exact h.1 (hx ▸ hek2 ▸ List.mem_map_of_mem (fun r => r.location) he)
        simp [hx, h0]
      · have := ih h.2
        simp [hx]
        omega

/-- C3: the result groups of `Search.search` are complete.  Assuming the index
returns hits with distinct references, the document map is coherent (the
document stored at a location carries that location) and closed under parents,
the items the search returns are the member lists of the computed group list,
and every group contains exactly one entry whose location equals the group's
key; that entry either stems from a real hit, or — when the article did not
independently match — is synthesized with score 0 and empty terms. -/
theorem c3_grouping_completeness
    (documents : String → Option SearchDocument)
    (parse : String → Except Unit (List Clause))
    (indexSearch : String → Except Unit (List Hit))
    (hl : String → String → String → List Position → String)
    (suggestEnabled : Bool) (titleSearch : List Clause → List Hit)
    (query : String) (parsed : List Clause) (hits : List Hit)
    (hq : query ≠ "") (hp : parse query = Except.ok parsed)
    (hs : indexSearch query = Except.ok hits)
    (hnod : (hits.map Hit.ref).Nodup)
    (hcoh : ∀ loc doc, documents loc = some doc → doc.location = loc)
    (hpar : ∀ loc doc p, documents loc = some doc → doc.parent = some p →
      ∃ pd, documents p = some pd) :
    (searchFn documents parse indexSearch hl suggestEnabled titleSearch
          query).items
        = (fixGroups documents (groupItems documents (sortItems (searchItems
            documents hl (parsed.filter fun c => c.presence ≠ Presence.prohibited)
            hits)))).map (fun g => g.2) ∧
      ∀ g ∈ fixGroups documents (groupItems documents (sortItems (searchItems
          documents hl (parsed.filter fun c => c.presence ≠ Presence.prohibited)
          hits))),
        g.2.countP (fun e => e.location = g.1) = 1 ∧
          ∀ e ∈ g.2, e.location = g.1 →
            e ∈ searchItems documents hl
                (parsed.filter fun c => c.presence ≠ Presence.prohibited) hits ∨
              (e.score = 0 ∧ e.terms = []) := by
  constructor
  · unfold searchFn
    rw [if_neg hq, hp, hs]
  · intro g hg
    have hperm : List.Perm
        (sortItems (searchItems documents hl
          (parsed.filter fun c => c.presence ≠ Presence.prohibited) hits))
        (searchItems documents hl
          (parsed.filter fun c => c.presence ≠ Presence.prohibited) hits) :=
      List.perm_insertionSort _ _
    have hlocs : ((sortItems (searchItems documents hl
        (parsed.filter fun c => c.presence ≠ Presence.prohibited) hits)).map
          fun r => r.location).Nodup := by
      have h1 := searchItems_locations documents hl
        (parsed.filter fun c => c.presence ≠ Presence.prohibited) hcoh hits
      have h2 : (((hits.filter fun h => (documents h.ref).isSome)).map
          Hit.ref).Nodup :=
        hnod.sublist ((List.filter_sublist hits).map Hit.ref)
      exact (hperm.map fun r => r.location).nodup_iff.mpr (h1 ▸ h2)
    rcases List.mem_map.mp hg with ⟨g0, hg0, rfl⟩
    have hsub : List.Sublist g0.2 (sortItems (searchItems documents hl
        (parsed.filter fun c => c.presence ≠ Presence.prohibited) hits)) := by
      have := groupItems_sublist documents _ [] [] (by simp) g0 hg0
      simpa using this
    have hmemall : ∀ e ∈ g0.2, e ∈ sortItems (searchItems documents hl
        (parsed.filter fun c => c.presence ≠ Presence.prohibited) hits) :=
      fun e he => hsub.subset he
    have hcount_le : g0.2.countP (fun e => e.location = g0.1) ≤ 1 :=
      le_trans (hsub.countP_le _) (countP_le_one_of_nodup_map hlocs)
    by_cases hc : g0.2.any (fun item => item.location = g0.1) = true
    · rw [if_pos hc]
      constructor
      · have hpos : 0 < g0.2.countP (fun e => e.location = g0.1) := by
          rcases List.any_eq_true.mp hc with ⟨e, he, hpe⟩
          exact List.countP_pos_iff.mpr ⟨e, he, hpe⟩
        omega
      · intro e he _
        exact Or.inl (hperm.mem_iff.mp (hmemall e he))
    · rw [if_neg hc]
      obtain ⟨r, hrs, hpr⟩ := groupItems_keys documents
        (fun r => r ∈ sortItems (searchItems documents hl
          (parsed.filter fun c => c.presence ≠ Presence.prohibited) hits))
        _ [] (by simp) (fun x hx => hx) g0 hg0
      have hdg : ∃ pd, documents g0.1 = some pd := by
        unfold parentRef at hpr
        cases hd : documents r.location with
        | none =>
            rw [hd] at hpr
            dsimp only at hpr
            exact absurd hpr (by simp)
        | some doc =>
            rw [hd] at hpr
            dsimp only at hpr
            cases hdp : doc.parent with
            | some p =>
                rw [hdp] at hpr
                simp only [Option.some.injEq] at hpr
                exact hpr ▸ hpar r.location doc p hd hdp
            | none =>
                rw [hdp] at hpr
                simp only [Option.some.injEq] at hpr
                refine ⟨doc, ?_⟩
                rw [← hpr, hcoh r.location doc hd]
                exact hd
      obtain ⟨pd, hpd⟩ := hdg
      rw [hpd]
      dsimp only
      have hpdloc : pd.location = g0.1 := hcoh g0.1 pd hpd
      constructor
      · rw [List.countP_append]
        have h0 : g0.2.countP (fun e => e.location = g0.1) = 0 := by
          rw [List.countP_eq_zero]
          intro e he hpe
          exact hc (List.any_eq_true.mpr ⟨e, he, hpe⟩)
        rw [h0]
        simp [List.countP_cons, hpdloc]
      · intro e he _
        rcases List.mem_append.mp he with h2 | h2
        · exact Or.inl (hperm.mem_iff.mp (hmemall e h2))
        · rw [List.mem_singleton.mp h2]
          exact Or.inr ⟨rfl, rfl⟩

/-- C3 witness: one article, one section whose parent is the article, and a
hit on the section only; the returned group is keyed by the article and every
hypothesis of the completeness theorem holds for this document map. -/
theorem c3_grouping_completeness_witness :
    (searchFn exDocs (fun _ => Except.ok [⟨"x", Presence.optional⟩])
          (fun _ => Except.ok [exHit]) exHl false (fun _ => []) "x").items
        = (fixGroups exDocs (groupItems exDocs (sortItems (searchItems
            exDocs exHl ([⟨"x", Presence.optional⟩].filter
              fun c => c.presence ≠ Presence.prohibited)
            [exHit])))).map (fun g => g.2) ∧
      ∀ g ∈ fixGroups exDocs (groupItems exDocs (sortItems (searchItems
          exDocs exHl ([⟨"x", Presence.optional⟩].filter
            fun c => c.presence ≠ Presence.prohibited)
          [exHit]))),
        g.2.countP (fun e => e.location = g.1) = 1 ∧
          ∀ e ∈ g.2, e.location = g.1 →
            e ∈ searchItems exDocs exHl
                ([⟨"x", Presence.optional⟩].filter
                  fun c => c.presence ≠ Presence.prohibited) [exHit] ∨
              (e.score = 0 ∧ e.terms = []) := by
  refine c3_grouping_completeness exDocs (fun _ => Except.ok [⟨"x", Presence.optional⟩])
    (fun _ => Except.ok [exHit]) exHl false (fun _ => []) "x"
    [⟨"x", Presence.optional⟩] [exHit] (by decide) rfl rfl (by decide) ?_ ?_
  · intro loc doc h
    unfold exDocs at h
    split_ifs at h with h1 h2
    · cases h; exact h1.symm
    · cases h; exact h2.symm
  · intro loc doc p h hp2
    unfold exDocs at h
    split_ifs at h with h1 h2
    · cases h; cases hp2
    · cases h
      cases hp2
      exact ⟨⟨"a", "T", "X", none⟩, by decide⟩

end SearchSpec
